import Mathlib

/-!
Verification of the chunk-and-embed ingestion pipeline of
`tools/TeachingAssistant.ContentPipeline/embeddings/generator.py`.

The Python source is shallowly embedded below:
* `pySplit` models Python `str.split()` (split on whitespace runs, dropping
  empty pieces); `pyStrip` models `str.strip()`.
* `splitByHeaders` models `SemanticChunker._split_by_headers`, which splits on
  the regex `\n(?=##\s)` (a newline immediately followed by a level-2 markdown
  header) and keeps only non-empty stripped sections.
* `chunkLoop` / `chunkSection` / `chunkSections` / `chunkContent` model
  `SemanticChunker._chunk_section` and `SemanticChunker.chunk_content`.
  The Python `while` loop carries no termination evidence, so `chunkLoop`
  takes a fuel argument; `none` means the fuel was exhausted, and
  `∀ fuel, chunkLoop ... fuel = none` expresses divergence of the loop.
  Window indices use natural-number arithmetic, which agrees with the
  Python `int` arithmetic whenever `overlap ≤ max_chunk` (the step
  `max_chunk - overlap` is then non-negative in both).
* `upsertRow` models the SQL statement executed per pair in
  `EmbeddingGenerator.embed_chunks_to_db`:
  `INSERT INTO content_embeddings ... ON CONFLICT (content_unit_id, chunk_index)
   DO UPDATE SET embedding = EXCLUDED.embedding`.
  Embedding scalars are carried verbatim (no arithmetic), modelled as `Rat`.
  The `$4::vector` cast follows pgvector semantics: a zero-dimension vector
  is rejected, so an empty embedding list raises an error.
* `insertPairs` and `runBatches` model the per-batch loop of
  `embed_chunks_to_db`: an exception from the embedding call or from a row
  write aborts the run immediately (the `try/finally` only closes the
  connection), carrying the store state reached so far.
-/

/-- Python whitespace characters recognised by `str.split()` / `str.strip()`. -/
def pyIsSpace (c : Char) : Bool :=
  c = ' ' || c = '\t' || c = '\n' || c = '\r' || c = '\x0b' || c = '\x0c'

/-- Worker for `pySplit`; `acc` holds the current word reversed.  A word is
emitted whenever a whitespace character or the end of input is reached with a
non-empty accumulator. -/
def pySplitAux : List Char → List Char → List String
  | [], acc => if acc.isEmpty then [] else [⟨acc.reverse⟩]
  | c :: rest, acc =>
    if pyIsSpace c then
      if acc.isEmpty then pySplitAux rest []
      else ⟨acc.reverse⟩ :: pySplitAux rest []
    else pySplitAux rest (c :: acc)

/-- Python `s.split()`: split on runs of whitespace, no empty pieces. -/
def pySplit (s : String) : List String :=
  pySplitAux s.data []

/-- Drop trailing Python whitespace. -/
def dropTrailing (cs : List Char) : List Char :=
  (cs.reverse.dropWhile pyIsSpace).reverse

/-- Python `s.strip()`: drop leading and trailing whitespace. -/
def pyStrip (s : String) : String :=
  ⟨dropTrailing (s.data.dropWhile pyIsSpace)⟩

/-- Does the character list start with `##` followed by a whitespace char?
This is the lookahead `(?=##\s)` of the regex in `_split_by_headers`. -/
def headerBreak : List Char → Bool
  | '#' :: '#' :: c :: _ => pyIsSpace c
  | _ => false

/-- Worker for `splitByHeaders`: split at every newline whose lookahead is a
level-2 header; the newline is consumed, the header stays with its section. -/
def splitAtHeadersAux : List Char → List Char → List String
  | [], acc => [⟨acc.reverse⟩]
  | c :: rest, acc =>
    if c = '\n' && headerBreak rest then ⟨acc.reverse⟩ :: splitAtHeadersAux rest []
    else splitAtHeadersAux rest (c :: acc)

/-- `SemanticChunker._split_by_headers`:
`re.split(r'\n(?=##\s)', text)` then `[s.strip() for s in sections if s.strip()]`. -/
def splitByHeaders (text : String) : List String :=
  ((splitAtHeadersAux text.data []).map pyStrip).filter (fun s => !s.isEmpty)

/-- Python `sep.join(ws)`. -/
def joinWith (sep : String) : List String → String
  | [] => ""
  | [w] => w
  | w :: ws => w ++ sep ++ joinWith sep ws

/-- Python `' '.join(ws)`. -/
def joinSpaces (ws : List String) : String :=
  joinWith " " ws

/-- Denormalized chunk metadata (the dict built in `_chunk_section`). -/
structure Metadata where
  subject : String
  grade_band : String
  topic_path : String
  title : String
deriving DecidableEq, Repr

/-- The fields of a content unit that the chunker reads. -/
structure ContentUnit where
  id : String
  full_text : String
  subject : String
  grade_band : String
  topic_path : List String
  title : String
deriving DecidableEq, Repr

/-- The `ContentChunk` dataclass. -/
structure ContentChunk where
  content_unit_id : String
  chunk_index : Nat
  text : String
  metadata : Metadata
deriving DecidableEq, Repr

/-- The three `SemanticChunker.__init__` parameters. The constructor performs
no validation whatsoever: any values are accepted as-is. -/
structure ChunkerConfig where
  max_chunk : Nat
  overlap : Nat
  min_chunk : Nat
deriving DecidableEq, Repr

/-- The metadata dict literal built in `_chunk_section` (both branches). -/
def mkMetadata (u : ContentUnit) : Metadata :=
  ⟨u.subject, u.grade_band, joinWith "/" u.topic_path, u.title⟩

/-- The `while i < len(words)` loop of `_chunk_section`.
`fuel` bounds the number of iterations; the Python loop has no such bound,
so a result of `none` for every fuel value models non-termination. -/
def chunkLoop (cfg : ChunkerConfig) (u : ContentUnit) (words : List String) :
    Nat → Nat → Nat → Option (List ContentChunk)
  | _, _, 0 => none
  | i, chunkIdx, fuel + 1 =>
    if i < words.length then
      let e := min (i + cfg.max_chunk) words.length
      let chunkWords := (words.drop i).take (e - i)
      if cfg.min_chunk ≤ chunkWords.length then
        match chunkLoop cfg u words (i + (cfg.max_chunk - cfg.overlap)) (chunkIdx + 1) fuel with
        | none => none
        | some rest =>
          some (⟨u.id, chunkIdx, joinSpaces chunkWords, mkMetadata u⟩ :: rest)
      else
        chunkLoop cfg u words (i + (cfg.max_chunk - cfg.overlap)) chunkIdx fuel
    else
      some []

/-- `SemanticChunker._chunk_section`.  A section whose word count is at most
`max_chunk` is returned whole (original text, not re-joined words); otherwise
the overlapping-window loop runs.  Fuel `words.length + 1` is enough whenever
the step `max_chunk - overlap` is at least 1. -/
def chunkSection (cfg : ChunkerConfig) (u : ContentUnit) (sec : String)
    (startIdx : Nat) : Option (List ContentChunk) :=
  let words := pySplit sec
  if words.length ≤ cfg.max_chunk then
    some [⟨u.id, startIdx, sec, mkMetadata u⟩]
  else
    chunkLoop cfg u words 0 startIdx (words.length + 1)

/-- The `for section in sections` loop of `chunk_content`, threading the
running chunk counter across sections. -/
def chunkSections (cfg : ChunkerConfig) (u : ContentUnit) :
    List String → Nat → Option (List ContentChunk)
  | [], _ => some []
  | sec :: rest, idx =>
    match chunkSection cfg u sec idx with
    | none => none
    | some cs =>
      match chunkSections cfg u rest (idx + cs.length) with
      | none => none
      | some more => some (cs ++ more)

/-- `SemanticChunker.chunk_content`. -/
def chunkContent (cfg : ChunkerConfig) (u : ContentUnit) :
    Option (List ContentChunk) :=
  chunkSections cfg u (splitByHeaders u.full_text) 0

/-- A row of the `content_embeddings` table.  Embedding scalars are carried
verbatim by the pipeline (no arithmetic is ever performed on them), so they
are modelled as rationals. -/
structure Row where
  content_unit_id : String
  chunk_index : Nat
  chunk_text : String
  embedding : List Rat
  metadata : Metadata
deriving DecidableEq, Repr

/-- Exceptions that `embed_chunks_to_db` can encounter: a non-2xx response
from the embedding server (`response.raise_for_status()`), or a database
error from the `$4::vector` cast (pgvector rejects zero-dimension vectors). -/
inductive PipelineError where
  | serviceError : String → PipelineError
  | emptyVector : PipelineError
deriving DecidableEq, Repr

/-- Does row `r` collide with chunk `c` on the unique key
`(content_unit_id, chunk_index)`? -/
def keyMatches (r : Row) (c : ContentChunk) : Bool :=
  r.content_unit_id = c.content_unit_id && r.chunk_index = c.chunk_index

/-- The conflict action `DO UPDATE SET embedding = EXCLUDED.embedding`: only
the `embedding` column of the conflicting rows is set; `chunk_text` and
`metadata` keep their stored values. -/
def updEmbed (store : List Row) (c : ContentChunk) (emb : List Rat) : List Row :=
  store.map (fun r => if keyMatches r c then { r with embedding := emb } else r)

/-- The row written by the `INSERT ... VALUES` list for a fresh key. -/
def rowOf (c : ContentChunk) (emb : List Rat) : Row :=
  ⟨c.content_unit_id, c.chunk_index, c.text, emb, c.metadata⟩

/-- One execution of the statement
`INSERT INTO content_embeddings (content_unit_id, chunk_index, chunk_text,
 embedding, metadata) VALUES ($1,$2,$3,$4::vector,$5::jsonb)
 ON CONFLICT (content_unit_id, chunk_index)
 DO UPDATE SET embedding = EXCLUDED.embedding`.
The `$4::vector` cast fails on a zero-dimension vector (pgvector), so an
empty embedding raises. -/
def upsertRow (store : List Row) (c : ContentChunk) (emb : List Rat) :
    Except PipelineError (List Row) :=
  if emb = [] then
    .error .emptyVector
  else if store.any (fun r => keyMatches r c) then
    .ok (updEmbed store c emb)
  else
    .ok (store ++ [rowOf c emb])

/-- Do two chunks collide on the unique key? -/
def sameKey (c1 c2 : ContentChunk) : Bool :=
  c1.content_unit_id = c2.content_unit_id && c1.chunk_index = c2.chunk_index

/-- The `for chunk, embedding in zip(batch, embeddings)` loop: rows are
written one by one; the first raised error aborts the run, keeping the
writes already committed (each statement autocommits). -/
def insertPairs : List (ContentChunk × List Rat) → List Row →
    List Row × Option PipelineError
  | [], store => (store, none)
  | (c, emb) :: rest, store =>
    match upsertRow store c emb with
    | .error e => (store, some e)
    | .ok store1 => insertPairs rest store1

/-- Outcome of a run of `embed_chunks_to_db`: the final store state, and the
exception that aborted the run, if any. -/
structure RunResult where
  store : List Row
  error : Option PipelineError
deriving DecidableEq, Repr

/-- The `for i in range(0, len(chunks), batch_size)` loop of
`embed_chunks_to_db`.  `embedF` is the oracle for the external embedding
service (`embed_texts`); an error from it, or from a row write, aborts the
run immediately — the `try/finally` only closes the connection and re-raises.
Python `range` requires a positive step, so the model is meaningful for
`batchSize ≥ 1`. -/
def runBatches (embedF : List String → Except PipelineError (List (List Rat)))
    (batchSize : Nat) : List ContentChunk → List Row → RunResult
  | [], store => ⟨store, none⟩
  | c :: cs, store =>
    let batch := c :: cs.take (batchSize - 1)
    match embedF (batch.map ContentChunk.text) with
    | .error e => ⟨store, some e⟩
    | .ok embs =>
      match insertPairs (batch.zip embs) store with
      | (store1, some e) => ⟨store1, some e⟩
      | (store1, none) => runBatches embedF batchSize (cs.drop (batchSize - 1)) store1
termination_by cs _ => cs.length
decreasing_by simp [List.length_drop]; omega

/-! ### Concrete instances used by counterexamples and witnesses -/

/-- Is there a split point of the regex `\n(?=##\s)` anywhere in the text? -/
def hasHeaderSplitPoint : List Char → Bool
  | [] => false
  | c :: rest => (c = '\n' && headerBreak rest) || hasHeaderSplitPoint rest

/-- A concrete content unit used to instantiate hypotheses of the theorems. -/
def uA : ContentUnit :=
  ⟨"unit-1", "alpha beta gamma delta epsilon", "math", "6-8", ["algebra"], "Intro"⟩

/-- The concrete 700-word text of the C2 scenario: 700 copies of `w`. -/
def c2text : String := joinSpaces (List.replicate 700 "w")

/-- The concrete ContentUnit of the C2 scenario. -/
def uC2 : ContentUnit := ⟨"unit-700", c2text, "sci", "9-10", ["bio"], "Long"⟩

/-- A 2-word unit: under the invalid configuration `max=2, overlap=2` the
chunker still returns a chunk without any error. -/
def uShort : ContentUnit := ⟨"unit-s", "a b", "m", "g", [], "T"⟩

/-- The last `n` elements of a list (Python `l[-n:]` for `0 < n ≤ len(l)`). -/
def lastN {α : Type} (n : Nat) (l : List α) : List α :=
  l.drop (l.length - n)

/-- The chunks the windowing loop emits for `uA` under `max=3, overlap=2,
min=1`. -/
def c4chunks : List ContentChunk :=
  [⟨"unit-1", 0, "alpha beta gamma", mkMetadata uA⟩,
   ⟨"unit-1", 1, "beta gamma delta", mkMetadata uA⟩,
   ⟨"unit-1", 2, "gamma delta epsilon", mkMetadata uA⟩,
   ⟨"unit-1", 3, "delta epsilon", mkMetadata uA⟩,
   ⟨"unit-1", 4, "epsilon", mkMetadata uA⟩]

/-- The chunks emitted for `uA` under `max=3, overlap=2, min=2`. -/
def c4amChunks : List ContentChunk :=
  [⟨"unit-1", 0, "alpha beta gamma", mkMetadata uA⟩,
   ⟨"unit-1", 1, "beta gamma delta", mkMetadata uA⟩,
   ⟨"unit-1", 2, "gamma delta epsilon", mkMetadata uA⟩,
   ⟨"unit-1", 3, "delta epsilon", mkMetadata uA⟩]

/-- Concrete store objects for the counterexamples and witnesses below. -/
def mdA : Metadata := ⟨"math", "6-8", "algebra", "T1"⟩

def mdB : Metadata := ⟨"science", "9-10", "biology", "T2"⟩

def rowA : Row := ⟨"u1", 0, "old text", [1], mdA⟩

/-- A chunk colliding with `rowA` on `(content_unit_id, chunk_index)` but
carrying different text and metadata. -/
def chB : ContentChunk := ⟨"u1", 0, "new text", mdB⟩

/-- Which keys are (successfully) written during a run of the pair loop:
pairs after the first empty-embedding pair are never reached. -/
def keyWritten : List (ContentChunk × List Rat) → ContentChunk → Bool
  | [], _ => false
  | (c1, e1) :: rest, c =>
    if e1 = [] then false
    else sameKey c1 c || keyWritten rest c

/-- Two chunks that land in two different batches when `batch_size = 1`. -/
def ch1 : ContentChunk := ⟨"u1", 0, "t1", mdA⟩

def ch2 : ContentChunk := ⟨"u1", 1, "t2", mdA⟩

/-- An embedding-service oracle that fails (HTTP 500) on the first batch and
succeeds on every other input. -/
def embedF0 : List String → Except PipelineError (List (List Rat)) :=
  fun ts =>
    if ts = ["t1"] then .error (.serviceError "500")
    else .ok (ts.map (fun _ => [1]))

/-- An embedding-service oracle that always answers with a good vector for
the first text and an empty vector for the second, so the second row write
of a 2-chunk batch fails. -/
def embedF2 : List String → Except PipelineError (List (List Rat)) :=
  fun _ => .ok [[5], []]

/-! ### Termination of the windowing loop (valid configurations) -/

/-- When the window step `max_chunk - overlap` is positive, fuel exceeding the
number of words left suffices: every iteration advances `i` by at least 1. -/
lemma chunkLoop_isSome (cfg : ChunkerConfig) (u : ContentUnit) (words : List String)
    (hstep : 1 ≤ cfg.max_chunk - cfg.overlap) :
    ∀ fuel i idx, words.length - i < fuel →
      (chunkLoop cfg u words i idx fuel).isSome := by
  intro fuel
  induction fuel with
  | zero => intro i idx h; omega
  | succ f ih =>
    intro i idx h
    rw [chunkLoop]
    by_cases hi : i < words.length
    · simp only [if_pos hi]
      have hrec := ih (i + (cfg.max_chunk - cfg.overlap)) (idx + 1) (by omega)
      have hrec2 := ih (i + (cfg.max_chunk - cfg.overlap)) idx (by omega)
      split
      · obtain ⟨rest, hrest⟩ := Option.isSome_iff_exists.mp hrec
        rw [hrest]
        simp
      · exact hrec2
    · simp [if_neg hi]

/-- A section always chunks successfully under a valid configuration. -/
lemma chunkSection_isSome (cfg : ChunkerConfig) (u : ContentUnit) (sec : String)
    (startIdx : Nat) (hstep : 1 ≤ cfg.max_chunk - cfg.overlap) :
    (chunkSection cfg u sec startIdx).isSome := by
  rw [chunkSection]
  by_cases hs : (pySplit sec).length ≤ cfg.max_chunk
  · simp [hs]
  · simp only [if_neg hs]
    exact chunkLoop_isSome cfg u (pySplit sec) hstep _ 0 startIdx (by omega)

/-- All sections chunk successfully under a valid configuration. -/
lemma chunkSections_isSome (cfg : ChunkerConfig) (u : ContentUnit)
    (hstep : 1 ≤ cfg.max_chunk - cfg.overlap) :
    ∀ secs idx, (chunkSections cfg u secs idx).isSome := by
  intro secs
  induction secs with
  | nil => intro idx; simp [chunkSections]
  | cons sec rest ih =>
    intro idx
    rw [chunkSections]
    obtain ⟨cs, hcs⟩ := Option.isSome_iff_exists.mp
      (chunkSection_isSome cfg u sec idx hstep)
    obtain ⟨more, hmore⟩ := Option.isSome_iff_exists.mp (ih (idx + cs.length))
    simp [hcs, hmore]

/-! ### Chunk indices are assigned sequentially -/

/-- The loop emits indices `chunkIdx, chunkIdx+1, ...` consecutively. -/
lemma chunkLoop_indices (cfg : ChunkerConfig) (u : ContentUnit) (words : List String) :
    ∀ fuel i idx cs, chunkLoop cfg u words i idx fuel = some cs →
      cs.map ContentChunk.chunk_index = List.range' idx cs.length := by
  intro fuel
  induction fuel with
  | zero => intro i idx cs h; simp [chunkLoop] at h
  | succ f ih =>
    intro i idx cs h
    rw [chunkLoop] at h
    dsimp only at h
    split at h
    · split at h
      · split at h
        · exact absurd h (by simp)
        · rename_i rest hrest
          simp only [Option.some.injEq] at h
          subst h
          have htail := ih _ _ _ hrest
          simp [htail, List.range'_succ]
      · exact ih _ _ _ h
    · simp only [Option.some.injEq] at h
      subst h
      simp

/-- A section's chunks carry indices `startIdx, startIdx+1, ...`. -/
lemma chunkSection_indices (cfg : ChunkerConfig) (u : ContentUnit) (sec : String)
    (startIdx : Nat) (cs : List ContentChunk)
    (h : chunkSection cfg u sec startIdx = some cs) :
    cs.map ContentChunk.chunk_index = List.range' startIdx cs.length := by
  rw [chunkSection] at h
  split at h
  · simp only [Option.some.injEq] at h
    subst h
    simp [List.range'_succ]
  · exact chunkLoop_indices cfg u (pySplit sec) _ 0 startIdx cs h

/-- Sections continue the running counter: the whole output carries indices
`idx, idx+1, ...` with no restart per section. -/
lemma chunkSections_indices (cfg : ChunkerConfig) (u : ContentUnit) :
    ∀ secs idx cs, chunkSections cfg u secs idx = some cs →
      cs.map ContentChunk.chunk_index = List.range' idx cs.length := by
  intro secs
  induction secs with
  | nil =>
    intro idx cs h
    simp only [chunkSections, Option.some.injEq] at h
    subst h
    simp
  | cons sec rest ih =>
    intro idx cs h
    rw [chunkSections] at h
    cases hsec : chunkSection cfg u sec idx with
    | none => rw [hsec] at h; exact absurd h (by simp)
    | some cs1 =>
      simp only [hsec] at h
      cases hmore : chunkSections cfg u rest (idx + cs1.length) with
      | none => rw [hmore] at h; exact absurd h (by simp)
      | some more =>
        simp only [hmore, Option.some.injEq] at h
        subst h
        have h1 := chunkSection_indices cfg u sec idx cs1 hsec
        have h2 := ih (idx + cs1.length) more hmore
        have hap := List.range'_append idx cs1.length more.length 1
        simp only [one_mul] at hap
        rw [List.map_append, h1, h2, hap]
        simp [Nat.add_comm]

/-! ### Facts about the Python string primitives -/

/-- Every word produced by `str.split()` is non-empty and whitespace-free. -/
lemma pySplitAux_wf : ∀ cs acc, (∀ c ∈ acc, pyIsSpace c = false) →
    ∀ w ∈ pySplitAux cs acc, w.data ≠ [] ∧ ∀ c ∈ w.data, pyIsSpace c = false := by
  intro cs
  induction cs with
  | nil =>
    intro acc hacc w hw
    cases acc with
    | nil => simp [pySplitAux] at hw
    | cons a as =>
      simp only [pySplitAux, List.isEmpty_cons, if_neg, Bool.false_eq_true,
        List.mem_singleton, reduceIte] at hw
      subst hw
      exact ⟨by simp, fun c hc => hacc c (List.mem_reverse.mp hc)⟩
  | cons c rest ih =>
    intro acc hacc w hw
    rw [pySplitAux] at hw
    by_cases hc : pyIsSpace c
    · rw [if_pos hc] at hw
      cases acc with
      | nil =>
        rw [if_pos (by simp)] at hw
        exact ih [] (by simp) w hw
      | cons a as =>
        rw [if_neg (by simp)] at hw
        rcases List.mem_cons.mp hw with hw | hw
        · subst hw
          exact ⟨by simp, fun d hd => hacc d (List.mem_reverse.mp hd)⟩
        · exact ih [] (by simp) w hw
    · rw [if_neg hc] at hw
      refine ih (c :: acc) ?_ w hw
      intro d hd
      rcases List.mem_cons.mp hd with rfl | hd
      · simpa using hc
      · exact hacc d hd

/-- A whitespace-free block of characters is consumed into the accumulator. -/
lemma pySplitAux_word (w : List Char) (hw : ∀ c ∈ w, pyIsSpace c = false) :
    ∀ cs acc, pySplitAux (w ++ cs) acc = pySplitAux cs (w.reverse ++ acc) := by
  induction w with
  | nil => intro cs acc; simp
  | cons c w' ih =>
    intro cs acc
    have hc : pyIsSpace c = false := hw c (by simp)
    rw [List.cons_append, pySplitAux, if_neg (by simp [hc])]
    rw [ih (fun d hd => hw d (by simp [hd])) cs (c :: acc)]
    simp

/-- `' '.join` then `str.split()` recovers a list of non-empty,
whitespace-free words. -/
lemma pySplit_joinSpaces : ∀ ws : List String,
    (∀ w ∈ ws, w.data ≠ [] ∧ ∀ c ∈ w.data, pyIsSpace c = false) →
    pySplit (joinSpaces ws) = ws := by
  intro ws
  induction ws with
  | nil => intro _; rfl
  | cons w ws' ih =>
    intro hwf
    obtain ⟨hne, hnospace⟩ := hwf w (by simp)
    have hrevne : ¬(w.data.reverse.isEmpty = true) := by
      simp [List.isEmpty_iff, List.reverse_eq_nil_iff, hne]
    cases ws' with
    | nil =>
      show pySplitAux w.data [] = [w]
      have h1 := pySplitAux_word w.data hnospace [] []
      simp only [List.append_nil] at h1
      rw [h1, pySplitAux, if_neg hrevne, List.reverse_reverse]
    | cons w2 ws'' =>
      show pySplit (w ++ " " ++ joinSpaces (w2 :: ws'')) = w :: w2 :: ws''
      rw [pySplit, String.data_append, String.data_append, List.append_assoc,
        pySplitAux_word w.data hnospace]
      simp only [List.append_nil]
      show pySplitAux (' ' :: (joinSpaces (w2 :: ws'')).data) w.data.reverse =
        w :: w2 :: ws''
      rw [pySplitAux, if_pos (show pyIsSpace ' ' = true by rfl), if_neg hrevne,
        List.reverse_reverse]
      show ⟨w.data⟩ :: pySplit (joinSpaces (w2 :: ws'')) = w :: w2 :: ws''
      rw [ih (fun x hx => hwf x (by simp [hx]))]

/-- Leading whitespace is ignored by `str.split()`. -/
lemma pySplitAux_dropLeading : ∀ cs : List Char,
    pySplitAux (cs.dropWhile pyIsSpace) [] = pySplitAux cs [] := by
  intro cs
  induction cs with
  | nil => rfl
  | cons c rest ih =>
    by_cases hc : pyIsSpace c
    · rw [List.dropWhile_cons_of_pos hc, ih, pySplitAux, if_pos hc,
        if_pos (show (List.isEmpty ([] : List Char)) = true from rfl)]
    · rw [List.dropWhile_cons_of_neg hc]

/-- An all-space input behaves as the empty input for `str.split()`. -/
lemma pySplitAux_allspace : ∀ tr acc, (∀ c ∈ tr, pyIsSpace c = true) →
    pySplitAux tr acc = pySplitAux [] acc := by
  intro tr
  induction tr with
  | nil => intro acc _; rfl
  | cons t tr' ih =>
    intro acc h
    have ht : pyIsSpace t = true := h t (by simp)
    have htail := ih [] (fun c hc => h c (by simp [hc]))
    conv_lhs => rw [pySplitAux]
    rw [if_pos ht]
    by_cases hacc : (acc.isEmpty : Bool) = true
    · have : acc = [] := List.isEmpty_iff.mp hacc
      subst this
      rw [if_pos hacc, htail]
    · rw [if_neg hacc, htail]
      simp [pySplitAux, hacc]

/-- Appending an all-space tail leaves `str.split()` unchanged. -/
lemma pySplitAux_trailing : ∀ cs acc tr, (∀ c ∈ tr, pyIsSpace c = true) →
    pySplitAux (cs ++ tr) acc = pySplitAux cs acc := by
  intro cs
  induction cs with
  | nil =>
    intro acc tr h
    simpa using pySplitAux_allspace tr acc h
  | cons c rest ih =>
    intro acc tr h
    rw [List.cons_append, pySplitAux, pySplitAux]
    by_cases hc : pyIsSpace c
    · by_cases hacc : (acc.isEmpty : Bool) = true
      · rw [if_pos hc, if_pos hc, if_pos hacc, if_pos hacc, ih [] tr h]
      · rw [if_pos hc, if_pos hc, if_neg hacc, if_neg hacc, ih [] tr h]
    · rw [if_neg hc, if_neg hc, ih (c :: acc) tr h]

/-- `str.strip()` does not change the result of `str.split()`. -/
lemma pySplit_strip (s : String) : pySplit (pyStrip s) = pySplit s := by
  rw [pySplit, pySplit, pyStrip]
  show pySplitAux (dropTrailing (s.data.dropWhile pyIsSpace)) [] = pySplitAux s.data []
  set d := s.data.dropWhile pyIsSpace with hd
  have hsplit : d = dropTrailing d ++ (d.reverse.takeWhile pyIsSpace).reverse := by
    rw [dropTrailing]
    have := congrArg List.reverse (List.takeWhile_append_dropWhile pyIsSpace d.reverse)
    rw [List.reverse_append, List.reverse_reverse] at this
    exact this.symm
  have htr : ∀ c ∈ (d.reverse.takeWhile pyIsSpace).reverse, pyIsSpace c = true := by
    intro c hc
    exact List.mem_takeWhile_imp (List.mem_reverse.mp hc)
  calc pySplitAux (dropTrailing d) []
      = pySplitAux (dropTrailing d ++ (d.reverse.takeWhile pyIsSpace).reverse) [] :=
        (pySplitAux_trailing _ [] _ htr).symm
    _ = pySplitAux d [] := by rw [← hsplit]
    _ = pySplitAux s.data [] := pySplitAux_dropLeading s.data

/-- Without a split point, `re.split` returns the whole text. -/
lemma splitAtHeadersAux_nosplit : ∀ cs acc, hasHeaderSplitPoint cs = false →
    splitAtHeadersAux cs acc = [⟨acc.reverse ++ cs⟩] := by
  intro cs
  induction cs with
  | nil => intro acc _; simp [splitAtHeadersAux]
  | cons c rest ih =>
    intro acc h
    rw [hasHeaderSplitPoint] at h
    simp only [Bool.or_eq_false_iff] at h
    rw [splitAtHeadersAux, if_neg (by simp [h.1]), ih (c :: acc) h.2]
    simp

/-- A text with at least one word and no level-2 header splits into exactly
one section: its own stripped form. -/
lemma splitByHeaders_noheader (s : String)
    (h : hasHeaderSplitPoint s.data = false) (hne : pySplit s ≠ []) :
    splitByHeaders s = [pyStrip s] := by
  rw [splitByHeaders, splitAtHeadersAux_nosplit s.data [] h]
  have hstrip : ¬(pyStrip s).isEmpty = true := by
    intro he
    rw [String.isEmpty_iff] at he
    have := pySplit_strip s
    rw [he] at this
    exact hne (this.symm.trans rfl)
  simp only [List.reverse_nil, List.nil_append, List.map_cons, List.map_nil]
  show List.filter _ [pyStrip s] = [pyStrip s]
  rw [List.filter_cons]
  simp [hstrip]

/-! ### Size bounds on emitted chunks -/

/-- Every chunk emitted by the windowing loop has a word count between
`min_chunk` and `max_chunk`. -/
lemma chunkLoop_sizes (cfg : ChunkerConfig) (u : ContentUnit) (words : List String)
    (hwf : ∀ w ∈ words, w.data ≠ [] ∧ ∀ c ∈ w.data, pyIsSpace c = false) :
    ∀ fuel i idx cs, chunkLoop cfg u words i idx fuel = some cs →
      ∀ ch ∈ cs, cfg.min_chunk ≤ (pySplit ch.text).length ∧
        (pySplit ch.text).length ≤ cfg.max_chunk := by
  intro fuel
  induction fuel with
  | zero => intro i idx cs h; simp [chunkLoop] at h
  | succ f ih =>
    intro i idx cs h
    rw [chunkLoop] at h
    dsimp only at h
    split at h
    · split at h
      · rename_i hm
        split at h
        · exact absurd h (by simp)
        · rename_i rest hrest
          simp only [Option.some.injEq] at h
          subst h
          intro ch hch
          rcases List.mem_cons.mp hch with rfl | hch
          · have hsub : ∀ w ∈ (words.drop i).take
                (min (i + cfg.max_chunk) words.length - i), w ∈ words := by
              intro w hw
              exact List.drop_subset i words (List.take_subset _ _ hw)
            have hrt : pySplit (joinSpaces ((words.drop i).take
                (min (i + cfg.max_chunk) words.length - i))) =
                (words.drop i).take (min (i + cfg.max_chunk) words.length - i) :=
              pySplit_joinSpaces _ (fun w hw => hwf w (hsub w hw))
            refine ⟨?_, ?_⟩
            · show cfg.min_chunk ≤ (pySplit (joinSpaces _)).length
              rw [hrt]
              exact hm
            · show (pySplit (joinSpaces _)).length ≤ cfg.max_chunk
              rw [hrt, List.length_take, List.length_drop]
              have := min_le_left (i + cfg.max_chunk) words.length
              omega
          · exact ih _ _ _ hrest ch hch
      · exact ih _ _ _ h
    · simp only [Option.some.injEq] at h
      subst h
      intro ch hch
      simp at hch

/-- Chunks of one section obey the size bound; a chunk below `min_chunk` can
only be the whole section. -/
lemma chunkSection_sizes (cfg : ChunkerConfig) (u : ContentUnit) (sec : String)
    (startIdx : Nat) (cs : List ContentChunk)
    (h : chunkSection cfg u sec startIdx = some cs) :
    ∀ ch ∈ cs, (pySplit ch.text).length ≤ cfg.max_chunk ∧
      (cfg.min_chunk ≤ (pySplit ch.text).length ∨ ch.text = sec) := by
  rw [chunkSection] at h
  split at h
  · rename_i hshort
    simp only [Option.some.injEq] at h
    subst h
    intro ch hch
    simp only [List.mem_singleton] at hch
    subst hch
    exact ⟨hshort, Or.inr rfl⟩
  · intro ch hch
    have hwf := pySplitAux_wf sec.data [] (by simp)
    have := chunkLoop_sizes cfg u (pySplit sec) hwf _ 0 startIdx cs h ch hch
    exact ⟨this.2, Or.inl this.1⟩

/-- Size bounds propagated across all sections. -/
lemma chunkSections_sizes (cfg : ChunkerConfig) (u : ContentUnit) :
    ∀ secs idx cs, chunkSections cfg u secs idx = some cs →
      ∀ ch ∈ cs, (pySplit ch.text).length ≤ cfg.max_chunk ∧
        (cfg.min_chunk ≤ (pySplit ch.text).length ∨ ch.text ∈ secs) := by
  intro secs
  induction secs with
  | nil =>
    intro idx cs h
    simp only [chunkSections, Option.some.injEq] at h
    subst h
    intro ch hch
    simp at hch
  | cons sec rest ih =>
    intro idx cs h
    rw [chunkSections] at h
    cases hsec : chunkSection cfg u sec idx with
    | none => rw [hsec] at h; exact absurd h (by simp)
    | some cs1 =>
      simp only [hsec] at h
      cases hmore : chunkSections cfg u rest (idx + cs1.length) with
      | none => rw [hmore] at h; exact absurd h (by simp)
      | some more =>
        simp only [hmore, Option.some.injEq] at h
        subst h
        intro ch hch
        rcases List.mem_append.mp hch with hch | hch
        · have := chunkSection_sizes cfg u sec idx cs1 hsec ch hch
          exact ⟨this.1, this.2.imp id (fun he => by simp [he])⟩
        · have := ih _ _ hmore ch hch
          exact ⟨this.1, this.2.imp id (fun he => by simp [he])⟩

/-! ### One-step evaluation lemmas for the windowing loop -/

/-- One emitting iteration of the loop, unfolded. -/
lemma chunkLoop_emit_step (cfg : ChunkerConfig) (u : ContentUnit)
    (words : List String) (i idx fuel : Nat) (hf : fuel ≠ 0)
    (hi : i < words.length)
    (hm : cfg.min_chunk ≤ min (i + cfg.max_chunk) words.length - i)
    (rest : List ContentChunk)
    (hrest : chunkLoop cfg u words (i + (cfg.max_chunk - cfg.overlap))
      (idx + 1) (fuel - 1) = some rest) :
    chunkLoop cfg u words i idx fuel =
      some (⟨u.id, idx,
        joinSpaces ((words.drop i).take (min (i + cfg.max_chunk) words.length - i)),
        mkMetadata u⟩ :: rest) := by
  cases fuel with
  | zero => exact absurd rfl hf
  | succ f =>
    simp only [Nat.add_sub_cancel] at hrest
    rw [chunkLoop]
    dsimp only
    rw [if_pos hi]
    have hlen : ((words.drop i).take
        (min (i + cfg.max_chunk) words.length - i)).length =
        min (i + cfg.max_chunk) words.length - i := by
      rw [List.length_take, List.length_drop]
      have := min_le_right (i + cfg.max_chunk) words.length
      omega
    rw [if_pos (by rw [hlen]; exact hm), hrest]

/-- The loop stops as soon as the window start passes the end of the words. -/
lemma chunkLoop_done (cfg : ChunkerConfig) (u : ContentUnit)
    (words : List String) (i idx fuel : Nat) (hf : fuel ≠ 0)
    (hi : ¬ i < words.length) :
    chunkLoop cfg u words i idx fuel = some [] := by
  cases fuel with
  | zero => exact absurd rfl hf
  | succ f =>
    rw [chunkLoop]
    dsimp only
    rw [if_neg hi]

/-- C10: for every ContentUnit and every configuration whose window step
`max_chunk_tokens - overlap_tokens` is at least 1, chunking terminates.
`chunkSection` runs the loop with fuel `words.length + 1`, and the fuel
suffices because each iteration strictly increases the window start, so the
loop over a section of `n` words performs at most `n` iterations. -/
theorem chunking_terminates (cfg : ChunkerConfig) (u : ContentUnit)
    (hstep : 1 ≤ cfg.max_chunk - cfg.overlap) :
    (chunkContent cfg u).isSome := by
  rw [chunkContent]
  exact chunkSections_isSome cfg u hstep _ 0

theorem chunking_terminates_witness :
    1 ≤ 512 - 64 ∧ (chunkContent ⟨512, 64, 100⟩ uA).isSome :=
  ⟨by decide, chunking_terminates ⟨512, 64, 100⟩ uA (by decide)⟩

/-- C5: for every ContentUnit and every valid configuration, the produced
chunk_index values are exactly `0, 1, ..., k-1` in document order, with no
gaps and no duplicates, the counter continuing across sections. -/
theorem chunk_index_contiguous (cfg : ChunkerConfig) (u : ContentUnit)
    (hv : cfg.overlap < cfg.max_chunk) :
    ∃ cs, chunkContent cfg u = some cs ∧
      cs.map ContentChunk.chunk_index = List.range cs.length := by
  obtain ⟨cs, hcs⟩ := Option.isSome_iff_exists.mp
    (chunkSections_isSome cfg u (by omega) (splitByHeaders u.full_text) 0)
  refine ⟨cs, hcs, ?_⟩
  rw [List.range_eq_range']
  exact chunkSections_indices cfg u _ 0 cs hcs

theorem chunk_index_contiguous_witness :
    (64 : Nat) < 512 ∧
      ∃ cs, chunkContent ⟨512, 64, 100⟩ uA = some cs ∧
        cs.map ContentChunk.chunk_index = List.range cs.length :=
  ⟨by decide, chunk_index_contiguous ⟨512, 64, 100⟩ uA (by decide)⟩

/-- C2: a ContentUnit whose full_text is exactly 700 words with no level-2
headers, chunked with `max_chunk_tokens=512, overlap_tokens=64,
min_chunk_tokens=100`, yields exactly 2 chunks: index 0 holding words 1-512
and index 1 holding words 449-700. -/
theorem scenario_700_words (u : ContentUnit) (words : List String)
    (hw : pySplit u.full_text = words) (h700 : words.length = 700)
    (hnb : hasHeaderSplitPoint u.full_text.data = false) :
    chunkContent ⟨512, 64, 100⟩ u =
      some [⟨u.id, 0, joinSpaces (words.take 512), mkMetadata u⟩,
            ⟨u.id, 1, joinSpaces (words.drop 448), mkMetadata u⟩] := by
  have hne : pySplit u.full_text ≠ [] := by
    rw [hw]
    intro hnil
    rw [hnil] at h700
    simp at h700
  have hsec := splitByHeaders_noheader u.full_text hnb hne
  have hwords : pySplit (pyStrip u.full_text) = words := by
    rw [pySplit_strip, hw]
  have e1 : chunkLoop ⟨512, 64, 100⟩ u words 896 2 699 = some [] :=
    chunkLoop_done _ u words 896 2 699 (by norm_num) (by omega)
  have e2 : chunkLoop ⟨512, 64, 100⟩ u words 448 1 700 =
      some [⟨u.id, 1,
        joinSpaces ((words.drop 448).take (min (448 + 512) words.length - 448)),
        mkMetadata u⟩] := by
    refine chunkLoop_emit_step ⟨512, 64, 100⟩ u words 448 1 700 (by norm_num)
      (by omega) ?_ [] ?_
    · show (100 : Nat) ≤ min (448 + 512) words.length - 448
      omega
    · show chunkLoop ⟨512, 64, 100⟩ u words (448 + (512 - 64)) 2 699 = some []
      norm_num
      exact e1
  have htake2 : (words.drop 448).take (min (448 + 512) words.length - 448) =
      words.drop 448 := by
    apply List.take_of_length_le
    rw [List.length_drop]
    omega
  rw [htake2] at e2
  have e3 : chunkLoop ⟨512, 64, 100⟩ u words 0 0 701 =
      some [⟨u.id, 0,
        joinSpaces ((words.drop 0).take (min (0 + 512) words.length - 0)),
        mkMetadata u⟩,
        ⟨u.id, 1, joinSpaces (words.drop 448), mkMetadata u⟩] := by
    refine chunkLoop_emit_step ⟨512, 64, 100⟩ u words 0 0 701 (by norm_num)
      (by omega) ?_ _ ?_
    · show (100 : Nat) ≤ min (0 + 512) words.length - 0
      omega
    · show chunkLoop ⟨512, 64, 100⟩ u words (0 + (512 - 64)) 1 700 = some _
      norm_num
      exact e2
  have htake1 : (words.drop 0).take (min (0 + 512) words.length - 0) =
      words.take 512 := by
    have hmin : min (0 + 512) words.length - 0 = 512 := by omega
    rw [hmin, List.drop_zero]
  rw [htake1] at e3
  have hsc : chunkSection ⟨512, 64, 100⟩ u (pyStrip u.full_text) 0 =
      some [⟨u.id, 0, joinSpaces (words.take 512), mkMetadata u⟩,
            ⟨u.id, 1, joinSpaces (words.drop 448), mkMetadata u⟩] := by
    rw [chunkSection]
    rw [hwords]
    rw [if_neg (show ¬(words.length ≤ 512) by omega)]
    rw [h700]
    exact e3
  rw [chunkContent, hsec]
  rw [chunkSections]
  simp only [hsc]
  rw [chunkSections]
  simp

/-- Characters of a joined list come from the separator or from the words. -/
lemma joinWith_chars (sep : String) : ∀ ws (c : Char),
    c ∈ (joinWith sep ws).data → c ∈ sep.data ∨ ∃ w ∈ ws, c ∈ w.data := by
  intro ws
  induction ws with
  | nil => intro c hc; simp [joinWith] at hc
  | cons w ws' ih =>
    intro c hc
    cases ws' with
    | nil => exact Or.inr ⟨w, by simp, hc⟩
    | cons w2 ws'' =>
      rw [show joinWith sep (w :: w2 :: ws'') = w ++ sep ++ joinWith sep (w2 :: ws'')
          from rfl, String.data_append, String.data_append] at hc
      rcases List.mem_append.mp hc with hc | hc
      · rcases List.mem_append.mp hc with hc | hc
        · exact Or.inr ⟨w, by simp, hc⟩
        · exact Or.inl hc
      · rcases ih c hc with hc | ⟨w3, hw3, hc⟩
        · exact Or.inl hc
        · exact Or.inr ⟨w3, by simp [hw3], hc⟩

/-- A text containing no newline has no level-2 header split point. -/
lemma hasHeaderSplitPoint_of_no_newline : ∀ cs : List Char,
    (∀ c ∈ cs, c ≠ '\n') → hasHeaderSplitPoint cs = false := by
  intro cs
  induction cs with
  | nil => intro _; rfl
  | cons c rest ih =>
    intro h
    rw [hasHeaderSplitPoint]
    have hc : ¬(c = '\n') := fun he => h c (by simp) he
    have hdec : (decide (c = '\n') && headerBreak rest) = false := by
      rw [decide_eq_false hc]
      rfl
    rw [hdec, ih (fun d hd => h d (by simp [hd]))]
    rfl

lemma uC2_words : pySplit uC2.full_text = List.replicate 700 "w" := by
  apply pySplit_joinSpaces
  intro w hw
  rw [List.eq_of_mem_replicate hw]
  exact ⟨by decide, by decide⟩

lemma uC2_noheader : hasHeaderSplitPoint uC2.full_text.data = false := by
  apply hasHeaderSplitPoint_of_no_newline
  intro c hc
  rcases joinWith_chars " " (List.replicate 700 "w") c hc with hc | ⟨w, hw, hc⟩
  · simp only [show (" " : String).data = [' '] from rfl, List.mem_singleton] at hc
    subst hc
    decide
  · rw [List.eq_of_mem_replicate hw] at hc
    simp only [show ("w" : String).data = ['w'] from rfl, List.mem_singleton] at hc
    subst hc
    decide

theorem scenario_700_words_witness :
    pySplit uC2.full_text = List.replicate 700 "w" ∧
    (List.replicate 700 "w" : List String).length = 700 ∧
    hasHeaderSplitPoint uC2.full_text.data = false ∧
    chunkContent ⟨512, 64, 100⟩ uC2 =
      some [⟨uC2.id, 0, joinSpaces ((List.replicate 700 "w").take 512),
              mkMetadata uC2⟩,
            ⟨uC2.id, 1, joinSpaces ((List.replicate 700 "w").drop 448),
              mkMetadata uC2⟩] :=
  ⟨uC2_words, by rw [List.length_replicate], uC2_noheader,
    scenario_700_words uC2 (List.replicate 700 "w") uC2_words
      (by rw [List.length_replicate]) uC2_noheader⟩

/-- C3: `SemanticChunker.__init__` performs no validation at all.  With
`overlap_tokens = max_chunk_tokens = 2` (step 0) the chunker does not fail
fast: it happily produces a chunk for a short section, and on a section
longer than `max_chunk_tokens` the windowing loop never terminates (the
model returns `none` for every fuel bound). -/
theorem no_config_validation :
    (chunkContent ⟨2, 2, 1⟩ uShort =
      some [⟨"unit-s", 0, "a b", mkMetadata uShort⟩]) ∧
    (∀ fuel idx, chunkLoop ⟨2, 2, 1⟩ uShort ["a", "b", "c"] 0 idx fuel = none) := by
  constructor
  · decide
  · intro fuel
    induction fuel with
    | zero => intro idx; rfl
    | succ f ih =>
      intro idx
      rw [chunkLoop]
      dsimp only
      rw [if_pos (by decide), if_pos (by decide)]
      have h0 : (0 + ((⟨2, 2, 1⟩ : ChunkerConfig).max_chunk -
          (⟨2, 2, 1⟩ : ChunkerConfig).overlap)) = 0 := rfl
      rw [h0, ih (idx + 1)]

/-- C4 as stated fails: with the valid configuration `max=3, overlap=2,
min=1` and a 5-word section (all chunks windowed), consecutive chunks 3 and
4 do not obey the overlap law: the last 2 words of chunk 3 are
`delta epsilon`, while chunk 4 holds the single word `epsilon`. -/
theorem overlap_law_counterexample :
    chunkSection ⟨3, 2, 1⟩ uA uA.full_text 0 = some c4chunks ∧
    3 < (pySplit uA.full_text).length ∧
    lastN 2 (pySplit (c4chunks.get ⟨3, by decide⟩).text) ≠
      (pySplit (c4chunks.get ⟨4, by decide⟩).text).take 2 :=
  ⟨by decide, by decide, by decide⟩

/-- Once a window falls below `min_chunk`, every later window does too, so
the loop emits nothing more. -/
lemma chunkLoop_tail_empty (cfg : ChunkerConfig) (u : ContentUnit)
    (words : List String) :
    ∀ fuel p idx cs, min (p + cfg.max_chunk) words.length - p < cfg.min_chunk →
      chunkLoop cfg u words p idx fuel = some cs → cs = [] := by
  intro fuel
  induction fuel with
  | zero => intro p idx cs _ h; simp [chunkLoop] at h
  | succ f ih =>
    intro p idx cs hwin h
    rw [chunkLoop] at h
    dsimp only at h
    split at h
    · split at h
      · rename_i hm
        exfalso
        rw [List.length_take, List.length_drop] at hm
        omega
      · exact ih _ _ _ (by omega) h
    · simp only [Option.some.injEq] at h
      exact h.symm

/-- If the loop returns a non-empty list, its head is the window at the
current position, which is emitted (so at least `min_chunk` words long). -/
lemma chunkLoop_head (cfg : ChunkerConfig) (u : ContentUnit)
    (words : List String) (fuel p idx : Nat) (c : ContentChunk)
    (rest : List ContentChunk)
    (h : chunkLoop cfg u words p idx fuel = some (c :: rest)) :
    p < words.length ∧
      cfg.min_chunk ≤ min (p + cfg.max_chunk) words.length - p ∧
      c = ⟨u.id, idx,
        joinSpaces ((words.drop p).take (min (p + cfg.max_chunk) words.length - p)),
        mkMetadata u⟩ ∧
      chunkLoop cfg u words (p + (cfg.max_chunk - cfg.overlap)) (idx + 1)
        (fuel - 1) = some rest := by
  cases fuel with
  | zero => simp [chunkLoop] at h
  | succ f =>
    rw [chunkLoop] at h
    dsimp only at h
    split at h
    · rename_i hp
      split at h
      · rename_i hm
        split at h
        · exact absurd h (by simp)
        · rename_i r hr
          simp only [Option.some.injEq, List.cons.injEq] at h
          rw [List.length_take, List.length_drop] at hm
          refine ⟨hp, by omega, h.1.symm, ?_⟩
          simp only [Nat.add_sub_cancel]
          rw [hr, h.2]
      · rename_i hm
        exfalso
        rw [List.length_take, List.length_drop] at hm
        have := chunkLoop_tail_empty cfg u words f
          (p + (cfg.max_chunk - cfg.overlap)) idx (c :: rest) (by omega) h
        simp at this
    · simp only [Option.some.injEq] at h
      exact absurd h.symm (by simp)

/-- The overlap law holds for consecutive emitted windowed chunks whenever
`overlap ≤ min_chunk` (so that a truncated final window is never followed by
another emitted chunk). -/
lemma chunkLoop_overlap (cfg : ChunkerConfig) (u : ContentUnit)
    (words : List String) (hstep : cfg.overlap < cfg.max_chunk)
    (hmin : cfg.overlap ≤ cfg.min_chunk)
    (hwf : ∀ w ∈ words, w.data ≠ [] ∧ ∀ c ∈ w.data, pyIsSpace c = false) :
    ∀ fuel i idx cs, chunkLoop cfg u words i idx fuel = some cs →
      ∀ j, (hj : j + 1 < cs.length) →
        lastN cfg.overlap (pySplit (cs.get ⟨j, by omega⟩).text) =
          (pySplit (cs.get ⟨j + 1, hj⟩).text).take cfg.overlap := by
  intro fuel
  induction fuel with
  | zero => intro i idx cs h; simp [chunkLoop] at h
  | succ f ih =>
    intro i idx cs h
    rw [chunkLoop] at h
    dsimp only at h
    split at h
    · rename_i hi
      split at h
      · rename_i hm
        split at h
        · exact absurd h (by simp)
        · rename_i rest hrest
          simp only [Option.some.injEq] at h
          subst h
          intro j hj
          cases j with
          | succ j0 =>
            have := ih _ _ _ hrest j0 (by simpa using hj)
            simpa using this
          | zero =>
            cases rest with
            | nil => simp at hj
            | cons c1 rest2 =>
              obtain ⟨hp, hm1, hc1, _⟩ :=
                chunkLoop_head cfg u words f _ _ c1 rest2 hrest
              simp only [List.get_cons_zero, List.get_cons_succ]
              rw [hc1]
              rw [List.length_take, List.length_drop] at hm
              -- notation for the two window positions
              have harith : words.length - (i + (cfg.max_chunk - cfg.overlap)) +
                  (i + (cfg.max_chunk - cfg.overlap)) = words.length := by omega
              -- the first window is full
              have hfull : min (i + cfg.max_chunk) words.length - i =
                  cfg.max_chunk := by
                have h1 : min (i + (cfg.max_chunk - cfg.overlap) + cfg.max_chunk)
                    words.length - (i + (cfg.max_chunk - cfg.overlap)) ≤
                    words.length - (i + (cfg.max_chunk - cfg.overlap)) := by omega
                omega
              have hW : pySplit (joinSpaces ((words.drop i).take
                  (min (i + cfg.max_chunk) words.length - i))) =
                  (words.drop i).take (min (i + cfg.max_chunk) words.length - i) :=
                pySplit_joinSpaces _ (fun w hw => hwf w
                  (List.drop_subset i words (List.take_subset _ _ hw)))
              have hW1 : pySplit (joinSpaces ((words.drop
                  (i + (cfg.max_chunk - cfg.overlap))).take
                  (min (i + (cfg.max_chunk - cfg.overlap) + cfg.max_chunk)
                    words.length - (i + (cfg.max_chunk - cfg.overlap))))) =
                  (words.drop (i + (cfg.max_chunk - cfg.overlap))).take
                  (min (i + (cfg.max_chunk - cfg.overlap) + cfg.max_chunk)
                    words.length - (i + (cfg.max_chunk - cfg.overlap))) :=
                pySplit_joinSpaces _ (fun w hw => hwf w
                  (List.drop_subset _ words (List.take_subset _ _ hw)))
              show lastN cfg.overlap (pySplit (joinSpaces _)) =
                (pySplit (joinSpaces _)).take cfg.overlap
              rw [hW, hW1, hfull]
              -- left side: last `overlap` words of the full window at i
              have hlenW : ((words.drop i).take cfg.max_chunk).length =
                  cfg.max_chunk := by
                rw [List.length_take, List.length_drop]
                omega
              rw [lastN, hlenW, List.drop_take, List.drop_drop]
              -- right side: first `overlap` words of the window at i + step
              rw [List.take_take]
              have hovl : min cfg.overlap
                  (min (i + (cfg.max_chunk - cfg.overlap) + cfg.max_chunk)
                    words.length - (i + (cfg.max_chunk - cfg.overlap))) =
                  cfg.overlap := by omega
              rw [hovl]
              have hsub : cfg.max_chunk - (cfg.max_chunk - cfg.overlap) =
                  cfg.overlap := by omega
              rw [hsub]
      · intro j hj
        exact ih _ _ _ h j hj
    · simp only [Option.some.injEq] at h
      subst h
      intro j hj
      simp at hj

/-- C4 amended: for every valid configuration that in addition satisfies
`overlap_tokens ≤ min_chunk_tokens` (as the defaults do), and for every pair
of consecutive windowed chunks of one section, the last `overlap_tokens`
words of chunk `j` equal the first `overlap_tokens` words of chunk `j+1`. -/
theorem overlap_law_amended (cfg : ChunkerConfig) (u : ContentUnit)
    (sec : String) (startIdx : Nat) (cs : List ContentChunk)
    (hstep : cfg.overlap < cfg.max_chunk) (hmin : cfg.overlap ≤ cfg.min_chunk)
    (hlong : cfg.max_chunk < (pySplit sec).length)
    (hres : chunkSection cfg u sec startIdx = some cs)
    (j : Nat) (hj : j + 1 < cs.length) :
    lastN cfg.overlap (pySplit (cs.get ⟨j, by omega⟩).text) =
      (pySplit (cs.get ⟨j + 1, hj⟩).text).take cfg.overlap := by
  rw [chunkSection] at hres
  rw [if_neg (by omega)] at hres
  exact chunkLoop_overlap cfg u (pySplit sec) hstep hmin
    (pySplitAux_wf sec.data [] (by simp)) _ 0 startIdx cs hres j hj

theorem overlap_law_amended_witness :
    lastN 2 (pySplit (c4amChunks.get ⟨2, by decide⟩).text) =
      (pySplit (c4amChunks.get ⟨3, by decide⟩).text).take 2 :=
  overlap_law_amended ⟨3, 2, 2⟩ uA uA.full_text 0 c4amChunks (by decide)
    (by decide) (by decide) (by decide) 2 (by decide)

/-- C6: for every ContentUnit and every valid configuration, every emitted
chunk's word count is at most `max_chunk_tokens`, and is at least
`min_chunk_tokens` except possibly for a chunk that is a whole section
(whose text is one of the split sections, necessarily shorter than
`max_chunk_tokens`). -/
theorem chunk_size_bounds (cfg : ChunkerConfig) (u : ContentUnit)
    (_hv : cfg.overlap < cfg.max_chunk) (cs : List ContentChunk)
    (h : chunkContent cfg u = some cs) (ch : ContentChunk) (hch : ch ∈ cs) :
    (pySplit ch.text).length ≤ cfg.max_chunk ∧
      (cfg.min_chunk ≤ (pySplit ch.text).length ∨
        ch.text ∈ splitByHeaders u.full_text) := by
  rw [chunkContent] at h
  exact chunkSections_sizes cfg u (splitByHeaders u.full_text) 0 cs h ch hch

theorem chunk_size_bounds_witness :
    (64 : Nat) < 512 ∧
      ((pySplit (ContentChunk.text ⟨"unit-1", 0, "alpha beta gamma delta epsilon",
          mkMetadata uA⟩)).length ≤ 512 ∧
        (100 ≤ (pySplit (ContentChunk.text ⟨"unit-1", 0,
            "alpha beta gamma delta epsilon", mkMetadata uA⟩)).length ∨
          ContentChunk.text ⟨"unit-1", 0, "alpha beta gamma delta epsilon",
            mkMetadata uA⟩ ∈ splitByHeaders uA.full_text)) :=
  ⟨by decide,
    chunk_size_bounds ⟨512, 64, 100⟩ uA (by decide)
      [⟨"unit-1", 0, "alpha beta gamma delta epsilon", mkMetadata uA⟩]
      (by decide) ⟨"unit-1", 0, "alpha beta gamma delta epsilon", mkMetadata uA⟩
      (by decide)⟩

/-! ### The vector store: upsert semantics -/

/-- Updating the embedding of a row does not change which keys it matches. -/
lemma keyMatches_update (r : Row) (c c2 : ContentChunk) (e : List Rat) :
    keyMatches (if keyMatches r c then { r with embedding := e } else r) c2 =
      keyMatches r c2 := by
  by_cases h : keyMatches r c
  · rw [if_pos h]; rfl
  · rw [if_neg h]

/-- `updEmbed` does not change which keys are present. -/
lemma any_updEmbed (s : List Row) (c c2 : ContentChunk) (e : List Rat) :
    (updEmbed s c e).any (fun r => keyMatches r c2) =
      s.any (fun r => keyMatches r c2) := by
  induction s with
  | nil => rfl
  | cons r s ih =>
    simp only [updEmbed, List.map_cons, List.any_cons] at ih ⊢
    rw [keyMatches_update, ih]

/-- C1 as stated fails: upserting a pair that conflicts with `rowA` replaces
the embedding but NOT the denormalized metadata (nor the chunk text): the
`DO UPDATE` clause sets only the `embedding` column. -/
theorem upsert_metadata_counterexample :
    upsertRow [rowA] chB [2] = .ok [⟨"u1", 0, "old text", [2], mdA⟩] ∧
    mdA ≠ chB.metadata ∧ chB.text ≠ "old text" :=
  ⟨by rfl, by decide, by decide⟩

/-- C1 amended: when a non-empty-embedding pair conflicts with existing rows,
the upsert succeeds and produces a store of the same shape in which every
row with the conflicting key has the new embedding, every other row keeps its
embedding, and EVERY row keeps its key, chunk_text and metadata: on update
the embedding wins, the denormalized metadata does not. -/
theorem upsert_conflict_updates_embedding_only (store : List Row)
    (c : ContentChunk) (emb : List Rat) (he : emb ≠ [])
    (hk : store.any (fun r => keyMatches r c) = true) :
    upsertRow store c emb = .ok (updEmbed store c emb) ∧
    List.Forall₂ (fun r1 r : Row =>
      r1.content_unit_id = r.content_unit_id ∧
      r1.chunk_index = r.chunk_index ∧
      r1.chunk_text = r.chunk_text ∧
      r1.metadata = r.metadata ∧
      r1.embedding = (if keyMatches r c then emb else r.embedding))
      (updEmbed store c emb) store := by
  constructor
  · rw [upsertRow, if_neg he, if_pos hk]
  · rw [updEmbed, List.forall₂_map_left_iff, List.forall₂_same]
    intro r hr
    by_cases h : keyMatches r c
    · rw [if_pos h, if_pos h]
      exact ⟨rfl, rfl, rfl, rfl, rfl⟩
    · rw [if_neg h, if_neg h]
      exact ⟨rfl, rfl, rfl, rfl, rfl⟩

theorem upsert_conflict_updates_embedding_only_witness :
    upsertRow [rowA] chB [2] = .ok (updEmbed [rowA] chB [2]) ∧
    List.Forall₂ (fun r1 r : Row =>
      r1.content_unit_id = r.content_unit_id ∧
      r1.chunk_index = r.chunk_index ∧
      r1.chunk_text = r.chunk_text ∧
      r1.metadata = r.metadata ∧
      r1.embedding = (if keyMatches r chB then [2] else r.embedding))
      (updEmbed [rowA] chB [2]) [rowA] :=
  upsert_conflict_updates_embedding_only [rowA] chB [2] (by decide) (by decide)

/-- A successful upsert of a non-empty embedding never stores an empty
embedding. -/
lemma upsertRow_clean (store : List Row) (c : ContentChunk) (emb : List Rat)
    (he : emb ≠ []) (hclean : ∀ r ∈ store, r.embedding ≠ [])
    (store1 : List Row) (h : upsertRow store c emb = .ok store1) :
    ∀ r ∈ store1, r.embedding ≠ [] := by
  rw [upsertRow, if_neg he] at h
  split at h
  · simp only [Except.ok.injEq] at h
    subst h
    intro r hr
    rw [updEmbed] at hr
    obtain ⟨r0, hr0, hmap⟩ := List.mem_map.mp hr
    subst hmap
    by_cases hm : keyMatches r0 c
    · rw [if_pos hm]
      exact he
    · rw [if_neg hm]
      exact hclean r0 hr0
  · simp only [Except.ok.injEq] at h
    subst h
    intro r hr
    rcases List.mem_append.mp hr with hr | hr
    · exact hclean r hr
    · simp only [List.mem_singleton] at hr
      subst hr
      exact he

/-- A non-empty embedding always upserts successfully. -/
lemma upsertRow_ok (store : List Row) (c : ContentChunk) (emb : List Rat)
    (he : emb ≠ []) : ∃ store1, upsertRow store c emb = .ok store1 := by
  rw [upsertRow, if_neg he]
  by_cases hk : store.any (fun r => keyMatches r c)
  · rw [if_pos hk]
    exact ⟨_, rfl⟩
  · rw [if_neg hk]
    exact ⟨_, rfl⟩

/-- C7: if any pair carries an empty embedding vector, the write loop
surfaces an error, and (starting from a store with no empty embeddings) no
empty embedding is ever persisted. -/
theorem empty_embedding_rejected (pairs : List (ContentChunk × List Rat))
    (store : List Row) (hin : ∃ p ∈ pairs, p.2 = ([] : List Rat))
    (hclean : ∀ r ∈ store, r.embedding ≠ []) :
    (insertPairs pairs store).2.isSome = true ∧
    ∀ r ∈ (insertPairs pairs store).1, r.embedding ≠ [] := by
  induction pairs generalizing store with
  | nil => simp at hin
  | cons p rest ih =>
    obtain ⟨c, e⟩ := p
    by_cases he : e = []
    · subst he
      rw [insertPairs]
      rw [show upsertRow store c [] = .error .emptyVector from rfl]
      exact ⟨rfl, hclean⟩
    · obtain ⟨store1, hok⟩ := upsertRow_ok store c e he
      rw [insertPairs, hok]
      have hin1 : ∃ p ∈ rest, p.2 = ([] : List Rat) := by
        rcases hin with ⟨p, hp, hpe⟩
        rcases List.mem_cons.mp hp with rfl | hp
        · exact absurd hpe he
        · exact ⟨p, hp, hpe⟩
      exact ih store1 hin1 (upsertRow_clean store c e he hclean store1 hok)

theorem empty_embedding_rejected_witness :
    (∃ p ∈ [(chB, ([] : List Rat))], p.2 = ([] : List Rat)) ∧
    (∀ r ∈ ([rowA] : List Row), r.embedding ≠ []) ∧
    (insertPairs [(chB, [])] [rowA]).2.isSome = true ∧
    ∀ r ∈ (insertPairs [(chB, [])] [rowA]).1, r.embedding ≠ [] :=
  ⟨⟨(chB, []), by decide, rfl⟩, by decide,
    empty_embedding_rejected [(chB, [])] [rowA] ⟨(chB, []), by decide, rfl⟩
      (by decide)⟩

/-! ### Idempotence of the upsert loop -/

/-- Conflict branch of the upsert. -/
lemma upsertRow_update (store : List Row) (c : ContentChunk) (emb : List Rat)
    (he : emb ≠ []) (hk : store.any (fun r => keyMatches r c) = true) :
    upsertRow store c emb = .ok (updEmbed store c emb) := by
  rw [upsertRow, if_neg he, if_pos hk]

/-- Fresh-key branch of the upsert. -/
lemma upsertRow_insert (store : List Row) (c : ContentChunk) (emb : List Rat)
    (he : emb ≠ []) (hk : store.any (fun r => keyMatches r c) = false) :
    upsertRow store c emb = .ok (store ++ [rowOf c emb]) := by
  rw [upsertRow, if_neg he, if_neg (by simp [hk])]

/-- The inserted row matches exactly the keys its chunk matches. -/
lemma keyMatches_rowOf (c1 c : ContentChunk) (e : List Rat) :
    keyMatches (rowOf c1 e) c = sameKey c1 c := rfl

lemma sameKey_refl (c : ContentChunk) : sameKey c c = true := by
  simp [sameKey]

/-- Chunks with equal keys match the same rows. -/
lemma keyMatches_congr (c1 c2 : ContentChunk) (hsk : sameKey c1 c2 = true)
    (r : Row) : keyMatches r c1 = keyMatches r c2 := by
  simp only [sameKey, Bool.and_eq_true, decide_eq_true_eq] at hsk
  simp [keyMatches, hsk.1, hsk.2]

/-- A row matching two chunks forces their keys to be equal. -/
lemma keyMatches_both (c1 c2 : ContentChunk) (r : Row)
    (h1 : keyMatches r c1 = true) (h2 : keyMatches r c2 = true) :
    sameKey c1 c2 = true := by
  simp only [keyMatches, Bool.and_eq_true, decide_eq_true_eq] at h1 h2
  simp only [sameKey, Bool.and_eq_true, decide_eq_true_eq]
  exact ⟨h1.1.symm.trans h2.1, h1.2.symm.trans h2.2⟩

/-- Updating embeddings to the values already stored is a no-op. -/
lemma updEmbed_id (s : List Row) (c : ContentChunk) (e : List Rat)
    (h : ∀ r ∈ s, keyMatches r c = true → r.embedding = e) :
    updEmbed s c e = s := by
  rw [updEmbed]
  have hid : ∀ r ∈ s,
      (if keyMatches r c then { r with embedding := e } else r) = r := by
    intro r hr
    by_cases hm : keyMatches r c
    · rw [if_pos hm, ← h r hr hm]
    · rw [if_neg hm]
  rw [List.map_congr_left hid]
  exact List.map_id' s

/-- Two embedding updates with the same key collapse to the last one. -/
lemma updEmbed_updEmbed_same (s : List Row) (c c1 : ContentChunk)
    (e e1 : List Rat) (hsk : sameKey c1 c = true) :
    updEmbed (updEmbed s c e) c1 e1 = updEmbed s c1 e1 := by
  rw [updEmbed, updEmbed, List.map_map]
  apply List.map_congr_left
  intro r _
  simp only [Function.comp_apply, keyMatches_update]
  by_cases hm : keyMatches r c1 = true
  · have hmc : keyMatches r c = true := by
      rw [← keyMatches_congr c1 c hsk r]
      exact hm
    simp [hm, hmc]
  · have hmc : ¬ keyMatches r c = true := by
      rw [← keyMatches_congr c1 c hsk r]
      exact hm
    simp [hm, hmc]

/-- Embedding updates with different keys commute. -/
lemma updEmbed_updEmbed_comm (s : List Row) (c c1 : ContentChunk)
    (e e1 : List Rat) (hsk : sameKey c1 c = false) :
    updEmbed (updEmbed s c e) c1 e1 = updEmbed (updEmbed s c1 e1) c e := by
  rw [updEmbed, updEmbed, List.map_map, updEmbed, updEmbed, List.map_map]
  apply List.map_congr_left
  intro r _
  simp only [Function.comp_apply, keyMatches_update]
  by_cases hm1 : keyMatches r c1 = true
  · by_cases hmc : keyMatches r c = true
    · rw [keyMatches_both c1 c r hm1 hmc] at hsk
      exact absurd hsk (by simp)
    · simp [hm1, hmc, keyMatches_update]
  · by_cases hmc : keyMatches r c = true
    · simp [hm1, hmc, keyMatches_update]
    · simp [hm1, hmc]

/-- A key present in the store stays present through the pair loop. -/
lemma insertPairs_any_mono (c : ContentChunk) :
    ∀ pairs (s : List Row), s.any (fun r => keyMatches r c) = true →
      ((insertPairs pairs s).1).any (fun r => keyMatches r c) = true := by
  intro pairs
  induction pairs with
  | nil => intro s h; exact h
  | cons p rest ih =>
    intro s h
    obtain ⟨c1, e1⟩ := p
    by_cases he : e1 = []
    · subst he
      rw [insertPairs, show upsertRow s c1 [] = .error .emptyVector from rfl]
      exact h
    · by_cases hk : s.any (fun r => keyMatches r c1) = true
      · rw [insertPairs, upsertRow_update s c1 e1 he hk]
        exact ih _ (by rw [any_updEmbed]; exact h)
      · rw [insertPairs, upsertRow_insert s c1 e1 he (by simpa using hk)]
        exact ih _ (by simp [List.any_append, h])

/-- After a successful upsert, every row matching the written key carries the
written embedding. -/
lemma upsertRow_key_embedding (store : List Row) (c : ContentChunk)
    (emb : List Rat) (store1 : List Row)
    (h : upsertRow store c emb = .ok store1) :
    ∀ r ∈ store1, keyMatches r c = true → r.embedding = emb := by
  rw [upsertRow] at h
  split at h
  · exact absurd h (by simp)
  · split at h
    · simp only [Except.ok.injEq] at h
      subst h
      intro r hr hm
      rw [updEmbed] at hr
      obtain ⟨r0, _, hfr⟩ := List.mem_map.mp hr
      subst hfr
      rw [keyMatches_update] at hm
      rw [if_pos hm]
    · rename_i hk
      simp only [Except.ok.injEq] at h
      subst h
      intro r hr hm
      rcases List.mem_append.mp hr with hr | hr
      · have hf : store.any (fun r => keyMatches r c) = false := by
          simpa using hk
        exact absurd hm (List.any_eq_false.mp hf r hr)
      · simp only [List.mem_singleton] at hr
        subst hr
        rfl

/-- After a successful upsert, the written key is present. -/
lemma upsertRow_has_key (store : List Row) (c : ContentChunk)
    (emb : List Rat) (store1 : List Row)
    (h : upsertRow store c emb = .ok store1) :
    store1.any (fun r => keyMatches r c) = true := by
  rw [upsertRow] at h
  split at h
  · exact absurd h (by simp)
  · split at h
    · rename_i hk
      simp only [Except.ok.injEq] at h
      subst h
      rw [any_updEmbed]
      exact hk
    · simp only [Except.ok.injEq] at h
      subst h
      rw [List.any_append]
      simp [keyMatches_rowOf, sameKey_refl]

/-- If a key is never written by the loop, rows matching it keep their
embedding. -/
lemma insertPairs_key_embedding (c : ContentChunk) (e : List Rat) :
    ∀ pairs (s : List Row), keyWritten pairs c = false →
      (∀ r ∈ s, keyMatches r c = true → r.embedding = e) →
      ∀ r ∈ (insertPairs pairs s).1, keyMatches r c = true → r.embedding = e := by
  intro pairs
  induction pairs with
  | nil => intro s _ hs; exact hs
  | cons p rest ih =>
    intro s hkw hs
    obtain ⟨c1, e1⟩ := p
    rw [keyWritten] at hkw
    by_cases he : e1 = []
    · subst he
      rw [insertPairs, show upsertRow s c1 [] = .error .emptyVector from rfl]
      exact hs
    · rw [if_neg he] at hkw
      simp only [Bool.or_eq_false_iff] at hkw
      by_cases hk : s.any (fun r => keyMatches r c1) = true
      · rw [insertPairs, upsertRow_update s c1 e1 he hk]
        refine ih _ hkw.2 ?_
        intro r hr hm
        rw [updEmbed] at hr
        obtain ⟨r0, hr0, hfr⟩ := List.mem_map.mp hr
        subst hfr
        rw [keyMatches_update] at hm
        by_cases hm1 : keyMatches r0 c1 = true
        · rw [keyMatches_both c1 c r0 hm1 hm] at hkw
          exact absurd hkw.1 (by simp)
        · rw [if_neg hm1]
          exact hs r0 hr0 hm
      · rw [insertPairs, upsertRow_insert s c1 e1 he (by simpa using hk)]
        refine ih _ hkw.2 ?_
        intro r hr hm
        rcases List.mem_append.mp hr with hr | hr
        · exact hs r hr hm
        · simp only [List.mem_singleton] at hr
          subst hr
          rw [keyMatches_rowOf] at hm
          rw [hm] at hkw
          exact absurd hkw.1 (by simp)

/-- Running the pair loop on a store whose embeddings for one key were just
rewritten: if the loop writes that key anyway, the rewrite is superseded;
otherwise it survives to the end.  The error outcome is unaffected. -/
lemma insertPairs_updEmbed (c : ContentChunk) (e : List Rat) :
    ∀ pairs (s : List Row), insertPairs pairs (updEmbed s c e) =
      (if keyWritten pairs c then (insertPairs pairs s).1
       else updEmbed (insertPairs pairs s).1 c e,
       (insertPairs pairs s).2) := by
  intro pairs
  induction pairs with
  | nil =>
    intro s
    simp [insertPairs, keyWritten]
  | cons p rest ih =>
    intro s
    obtain ⟨c1, e1⟩ := p
    by_cases he : e1 = []
    · subst he
      rw [insertPairs, insertPairs,
        show upsertRow (updEmbed s c e) c1 [] = .error .emptyVector from rfl,
        show upsertRow s c1 [] = .error .emptyVector from rfl,
        keyWritten]
      simp
    · rw [keyWritten, if_neg he]
      by_cases hsk : sameKey c1 c = true
      · rw [hsk]
        by_cases hk : s.any (fun r => keyMatches r c1) = true
        · have hk1 : (updEmbed s c e).any (fun r => keyMatches r c1) = true := by
            rw [any_updEmbed]
            exact hk
          rw [insertPairs, upsertRow_update _ c1 e1 he hk1,
            insertPairs, upsertRow_update s c1 e1 he hk,
            updEmbed_updEmbed_same s c c1 e e1 hsk]
          simp
        · have hnoc : ∀ r ∈ s, keyMatches r c = true → r.embedding = e := by
            intro r hr hm
            rw [← keyMatches_congr c1 c hsk r] at hm
            exact absurd hm (List.any_eq_false.mp (by simpa using hk) r hr)
          rw [updEmbed_id s c e hnoc]
          simp
      · have hskf : sameKey c1 c = false := by simpa using hsk
        rw [hskf]
        by_cases hk : s.any (fun r => keyMatches r c1) = true
        · have hk1 : (updEmbed s c e).any (fun r => keyMatches r c1) = true := by
            rw [any_updEmbed]
            exact hk
          rw [insertPairs, upsertRow_update _ c1 e1 he hk1,
            insertPairs, upsertRow_update s c1 e1 he hk,
            updEmbed_updEmbed_comm s c c1 e e1 hskf]
          dsimp only
          rw [ih (updEmbed s c1 e1)]
          simp
        · have hk1 : (updEmbed s c e).any (fun r => keyMatches r c1) = false := by
            rw [any_updEmbed]
            simpa using hk
          rw [insertPairs, upsertRow_insert _ c1 e1 he hk1,
            insertPairs, upsertRow_insert s c1 e1 he (by simpa using hk)]
          have happ : updEmbed s c e ++ [rowOf c1 e1] =
              updEmbed (s ++ [rowOf c1 e1]) c e := by
            rw [updEmbed, updEmbed, List.map_append]
            simp [keyMatches_rowOf, hskf]
          rw [happ]
          dsimp only
          rw [ih (s ++ [rowOf c1 e1])]
          simp

/-- C8: performing the upsert loop twice with the same pairs leaves the
store in exactly the same state (rows, order, keys, texts, embeddings,
metadata) as performing it once, and surfaces the same error if any:
re-runs overwrite rather than duplicate. -/
theorem upsert_idempotent (pairs : List (ContentChunk × List Rat)) :
    ∀ store : List Row,
      insertPairs pairs (insertPairs pairs store).1 = insertPairs pairs store := by
  induction pairs with
  | nil => intro store; rfl
  | cons p rest ih =>
    intro store
    obtain ⟨c, e⟩ := p
    by_cases he : e = []
    · subst he
      have hrhs : insertPairs ((c, ([] : List Rat)) :: rest) store =
          (store, some .emptyVector) := by
        rw [insertPairs, show upsertRow store c [] = .error .emptyVector from rfl]
      rw [hrhs]
      exact hrhs
    · obtain ⟨s1, hok⟩ := upsertRow_ok store c e he
      have hks1 : s1.any (fun r => keyMatches r c) = true :=
        upsertRow_has_key store c e s1 hok
      have hrhs : insertPairs ((c, e) :: rest) store = insertPairs rest s1 := by
        rw [insertPairs, hok]
      rw [hrhs]
      have hkX : ((insertPairs rest s1).1).any (fun r => keyMatches r c) = true :=
        insertPairs_any_mono c rest s1 hks1
      rw [insertPairs, upsertRow_update _ c e he hkX]
      dsimp only
      rw [insertPairs_updEmbed c e rest (insertPairs rest s1).1, ih s1]
      by_cases hkw : keyWritten rest c = true
      · rw [if_pos hkw]
      · rw [if_neg hkw]
        have hemb : ∀ r ∈ (insertPairs rest s1).1,
            keyMatches r c = true → r.embedding = e :=
          insertPairs_key_embedding c e rest s1 (by simpa using hkw)
            (upsertRow_key_embedding store c e s1 hok)
        rw [updEmbed_id _ c e hemb]

/-! ### Orchestrator failure behaviour -/

/-- C9 as stated fails: with two batches (`batch_size = 1`) whose first
embedding call raises, the run does not aggregate errors or return a
summary, and the second batch is never attempted even though its embedding
call would succeed: the exception aborts the whole run with the store
untouched. -/
theorem orchestrator_counterexample :
    runBatches embedF0 1 [ch1, ch2] [] =
      ⟨[], some (PipelineError.serviceError "500")⟩ ∧
    embedF0 [ch2.text] = .ok [[1]] := by
  constructor
  · rw [runBatches]
    rw [show embedF0 ((ch1 :: List.take (1 - 1) [ch2]).map ContentChunk.text) =
      .error (.serviceError "500") from rfl]
  · rfl

/-- C9 amended: the run aborts on the first failing batch instead of
aggregating errors — the exception propagates to the caller (after the
connection closes), no later batch is attempted, and no run summary is
returned.  A failing embedding call leaves the store untouched; a failing
row write keeps exactly the rows of that batch written before the failing
row (each write autocommits, per spec §4.3). -/
theorem orchestrator_aborts_on_first_failure
    (embedF : List String → Except PipelineError (List (List Rat)))
    (batchSize : Nat) (c : ContentChunk) (cs : List ContentChunk)
    (store : List Row) :
    (∀ err : PipelineError,
      embedF ((c :: cs.take (batchSize - 1)).map ContentChunk.text) =
        .error err →
      runBatches embedF batchSize (c :: cs) store = ⟨store, some err⟩) ∧
    (∀ (embs : List (List Rat)) (store1 : List Row) (err : PipelineError),
      embedF ((c :: cs.take (batchSize - 1)).map ContentChunk.text) =
        .ok embs →
      insertPairs ((c :: cs.take (batchSize - 1)).zip embs) store =
        (store1, some err) →
      runBatches embedF batchSize (c :: cs) store = ⟨store1, some err⟩) := by
  constructor
  · intro err h
    rw [runBatches, h]
  · intro embs store1 err h1 h2
    rw [runBatches, h1]
    dsimp only
    rw [h2]

theorem orchestrator_aborts_on_first_failure_witness :
    runBatches embedF0 1 [ch1, ch2] [rowA] =
      ⟨[rowA], some (PipelineError.serviceError "500")⟩ ∧
    runBatches embedF2 2 [ch1, ch2] [] =
      ⟨[⟨"u1", 0, "t1", [5], mdA⟩], some PipelineError.emptyVector⟩ :=
  ⟨(orchestrator_aborts_on_first_failure embedF0 1 ch1 [ch2] [rowA]).1
      (.serviceError "500") rfl,
   (orchestrator_aborts_on_first_failure embedF2 2 ch1 [ch2] []).2
      [[5], []] [⟨"u1", 0, "t1", [5], mdA⟩] .emptyVector rfl (by rfl)⟩
